import Mathlib

/-!
Shallow embedding of the rate-limiting, retry, and circuit-breaking layer of
the social-agent repository, together with theorems settling the spec claims.

Timestamps and token counts are modelled as rationals (the source uses Python
floats and `time.time()`; we idealise real-number arithmetic by `ℚ`).
-/

namespace SocialAgent

/-! ## Multi-window token bucket, from `utils.py`, class `RateLimiter`.

A window's configuration is `max_requests` (capacity) and `time_window`
(period in seconds); its mutable state is `tokens` and `last_update`.
The source keeps three dicts keyed by window name iterated in insertion
order; we represent the bucket as a list of per-window records in that
order.  -/

structure WindowState where
  max_requests : ℕ
  time_window : ℚ
  tokens : ℚ
  last_update : ℚ
  deriving DecidableEq, Inhabited

/-- One refill step of `RateLimiter.acquire`:
`tokens = min(max_requests, tokens + time_passed * max_requests / time_window)`
followed by `last_update = now`. -/
def refillWindow (now : ℚ) (w : WindowState) : WindowState :=
  { w with
    tokens := min (w.max_requests : ℚ)
      (w.tokens + (now - w.last_update) * (w.max_requests : ℚ) / w.time_window)
    last_update := now }

/-- The deduction `self.tokens[window] -= 1` performed on a granted request. -/
def deduct (w : WindowState) : WindowState :=
  { w with tokens := w.tokens - 1 }

/-- The first loop of `RateLimiter.acquire`: refill each window in order and
check `tokens < 1`, returning early with `False` at the first failing window
(windows after it are left untouched; the failing window itself and all
earlier ones have been refilled and had `last_update` advanced). -/
def checkLoop (now : ℚ) : List WindowState → Bool × List WindowState
  | [] => (true, [])
  | w :: ws =>
    let w1 := refillWindow now w
    if w1.tokens < 1 then (false, w1 :: ws)
    else
      let r := checkLoop now ws
      (r.1, w1 :: r.2)

/-- Model of `RateLimiter.acquire`: refill-and-check every window; if all pass,
deduct one token from each window and return `True`, otherwise return
`False` without deducting. -/
def acquire (now : ℚ) (ws : List WindowState) : Bool × List WindowState :=
  let r := checkLoop now ws
  if r.1 then (true, r.2.map deduct) else (false, r.2)

/-- Model of `RateLimiter.__init__`: every window starts with `tokens = max_requests`
and `last_update` equal to the construction time `t0`.  The configuration is
a list of `(max_requests, time_window)` pairs. -/
def initWindows (t0 : ℚ) (cfg : List (ℕ × ℚ)) : List WindowState :=
  cfg.map (fun c => ⟨c.1, c.2, (c.1 : ℚ), t0⟩)

/-- The sequence of results of `acquire` calls at the given timestamps. -/
def runResults : List ℚ → List WindowState → List Bool
  | [], _ => []
  | t :: ts, ws => (acquire t ws).1 :: runResults ts (acquire t ws).2

/-- The bucket state after a sequence of `acquire` calls at the given
timestamps. -/
def runState : List ℚ → List WindowState → List WindowState
  | [], ws => ws
  | t :: ts, ws => runState ts (acquire t ws).2

/-- Number of `acquire` calls that return `true` at a timestamp inside the
closed interval `[a, b]`, along a run at the given timestamps. -/
def grantsIn (a b : ℚ) : List ℚ → List WindowState → ℕ
  | [], _ => 0
  | t :: ts, ws =>
    (if a ≤ t ∧ t ≤ b ∧ (acquire t ws).1 = true then 1 else 0)
      + grantsIn a b ts (acquire t ws).2

/-- A window is well-formed at observation time `now`: positive period,
token count between `0` and capacity, and last refill not in the future. -/
def GoodWindow (now : ℚ) (w : WindowState) : Prop :=
  0 < w.time_window ∧ 0 ≤ w.tokens ∧ w.tokens ≤ (w.max_requests : ℚ) ∧
    w.last_update ≤ now

/-- Two window states are indistinguishable from time `u` on: refilling
either at any time `≥ u` yields the same window. -/
def EquivFrom (u : ℚ) (w1 w : WindowState) : Prop :=
  ∀ t, u ≤ t → refillWindow t w1 = refillWindow t w

/-! ## Circuit breaker, from `circuit_breaker.py`. -/

inductive CircuitState where
  | CLOSED
  | OPEN
  | HALF_OPEN
  deriving DecidableEq, Inhabited

structure CircuitBreaker where
  failure_threshold : ℕ
  recovery_timeout : ℚ
  state : CircuitState
  failure_count : ℕ
  last_failure_time : ℚ
  deriving DecidableEq, Inhabited

/-- Model of `CircuitBreaker.__init__`: starts `CLOSED` with `failure_count = 0` and
`last_failure_time = 0`. -/
def initBreaker (threshold : ℕ) (timeout : ℚ) : CircuitBreaker :=
  ⟨threshold, timeout, .CLOSED, 0, 0⟩

/-- Model of `CircuitBreaker.can_execute`: `CLOSED` and `HALF_OPEN` return `True`
unchanged; `OPEN` returns `True` and moves to `HALF_OPEN` when
`now - last_failure_time >= recovery_timeout`, else `False` unchanged. -/
def can_execute (now : ℚ) (cb : CircuitBreaker) : Bool × CircuitBreaker :=
  match cb.state with
  | .CLOSED => (true, cb)
  | .OPEN =>
    if cb.recovery_timeout ≤ now - cb.last_failure_time
    then (true, { cb with state := .HALF_OPEN })
    else (false, cb)
  | .HALF_OPEN => (true, cb)

/-- Model of `CircuitBreaker.record_success`: reset to `CLOSED` with zero failures. -/
def record_success (cb : CircuitBreaker) : CircuitBreaker :=
  { cb with state := .CLOSED, failure_count := 0 }

/-- Model of `CircuitBreaker.record_failure`: increment the failure count, stamp the
failure time, and open the breaker when the count reaches the threshold. -/
def record_failure (now : ℚ) (cb : CircuitBreaker) : CircuitBreaker :=
  let cb1 := { cb with
    failure_count := cb.failure_count + 1
    last_failure_time := now }
  if cb1.failure_threshold ≤ cb1.failure_count
  then { cb1 with state := .OPEN }
  else cb1

inductive BreakerEvent where
  | canExecute (now : ℚ)
  | recordSuccess
  | recordFailure (now : ℚ)
  deriving DecidableEq

def breakerStep (cb : CircuitBreaker) (e : BreakerEvent) : CircuitBreaker :=
  match e with
  | .canExecute now => (can_execute now cb).2
  | .recordSuccess => record_success cb
  | .recordFailure now => record_failure now cb

def breakerRun (evs : List BreakerEvent) (cb : CircuitBreaker) : CircuitBreaker :=
  evs.foldl breakerStep cb

/-- The inductive invariant behind claim C6. -/
def BreakerInv (cb : CircuitBreaker) : Prop :=
  cb.state = .OPEN → cb.failure_threshold ≤ cb.failure_count

/-! ## Retry with exponential backoff.

Two retry executors exist in the repository: `retry.py`'s
`retry_with_backoff` (loops `for retry in range(max_retries + 1)` with a
delay capped at `max_delay`) and `utils.py`'s `retry_with_backoff` (loops
`for attempt in range(max_retries)` with an uncapped doubling delay).  An
operation is modelled as a function from the attempt index to a result;
an exception filter (`exceptions` parameter / except clause) is modelled as
a Boolean predicate on error values. -/

/-- How a run of `retry.py`'s loop ends: a successful return; the bare
re-raise of the last error on the final attempt (logged as max retries
exceeded); or an error not matching the except-clause filter propagating
out of the loop at once. -/
inductive RetryOutcome (E T : Type) where
  | success (v : T)
  | maxRetriesExceeded (e : E)
  | propagated (e : E)
  deriving DecidableEq

/-- Observable behaviour of one executor run: outcome, number of times the
operation was invoked, and the sequence of sleeps performed. -/
structure RetryTrace (E T : Type) where
  outcome : RetryOutcome E T
  calls : ℕ
  delays : List ℚ
  deriving DecidableEq

namespace Retry

/-- The loop body of `retry.py`'s `retry_with_backoff`, with `k` the current
attempt index and `n` the number of attempts still allowed after this one
(the loop runs attempts `0 .. max_retries`, so it starts at
`n = max_retries`).  On a caught error at `n = 0` (`retry == max_retries`)
the error is re-raised; before that, the current delay is slept and the next
delay is `min(delay * backoff_factor, max_delay)`. -/
def retryAux {E T : Type} (retryable : E → Bool) (op : ℕ → Except E T)
    (factor max_delay : ℚ) : ℕ → ℚ → ℕ → RetryTrace E T
  | k, _, 0 =>
    match op k with
    | .ok v => ⟨.success v, 1, []⟩
    | .error e =>
      if retryable e then ⟨.maxRetriesExceeded e, 1, []⟩ else ⟨.propagated e, 1, []⟩
  | k, delay, n + 1 =>
    match op k with
    | .ok v => ⟨.success v, 1, []⟩
    | .error e =>
      if retryable e then
        let r := retryAux retryable op factor max_delay (k + 1)
          (min (delay * factor) max_delay) n
        ⟨r.outcome, r.calls + 1, delay :: r.delays⟩
      else ⟨.propagated e, 1, []⟩

/-- Model of `retry.py`'s `retry_with_backoff` decorator applied to `op`. -/
def retry_with_backoff {E T : Type} (max_retries : ℕ)
    (initial_delay max_delay backoff_factor : ℚ)
    (retryable : E → Bool) (op : ℕ → Except E T) : RetryTrace E T :=
  retryAux retryable op backoff_factor max_delay 0 initial_delay max_retries

end Retry

/-- How a run of `utils.py`'s loop ends: a successful return, the re-raise
of the last stored exception after the loop, or the degenerate
`raise None` when `max_retries = 0` (the loop body never runs). -/
inductive UtilsOutcome (E T : Type) where
  | success (v : T)
  | raisedLast (e : E)
  | raisedNone
  deriving DecidableEq

namespace Utils

/-- The loop of `utils.py`'s `retry_with_backoff`: `for attempt in
range(max_retries)`, catching every exception and re-raising the last one
after the loop.  `n` counts the remaining loop iterations. -/
def retryAux {E T : Type} (op : ℕ → Except E T) :
    ℕ → ℕ → Option E → UtilsOutcome E T × ℕ
  | _, 0, last =>
    (match last with
     | some e => (.raisedLast e : UtilsOutcome E T)
     | none => .raisedNone, 0)
  | k, n + 1, _ =>
    match op k with
    | .ok v => (.success v, 1)
    | .error e =>
      let r := retryAux op (k + 1) n (some e)
      (r.1, r.2 + 1)

/-- Model of `utils.py`'s `retry_with_backoff` decorator applied to `op`, returning
the outcome and the number of times `op` was invoked. -/
def retry_with_backoff {E T : Type} (max_retries : ℕ) (op : ℕ → Except E T) :
    UtilsOutcome E T × ℕ :=
  retryAux op 0 max_retries none

end Utils

/-- An operation that fails on every attempt, with the error of attempt `k`
given by `errs k`. -/
def failingOp {E : Type} (errs : ℕ → E) : ℕ → Except E Unit :=
  fun k => .error (errs k)

/-- The sequence of sleeps performed by `retry.py`'s loop on a run whose
every attempt fails with a retryable error, starting from current delay `d`
with `n` retries remaining. -/
def delayList (factor max_delay : ℚ) : ℚ → ℕ → List ℚ
  | _, 0 => []
  | d, n + 1 => d :: delayList factor max_delay (min (d * factor) max_delay) n

/-- The delay slept before the `(j+1)`-st retry of `retry.py`'s loop on an
always-failing run: the first sleep is `initial_delay` itself, and each
subsequent sleep is `min(previous * backoff_factor, max_delay)`. -/
def delaySeq (initial factor max_delay : ℚ) : ℕ → ℚ
  | 0 => initial
  | j + 1 => min (delaySeq initial factor max_delay j * factor) max_delay

/-- The error kinds the spec's error taxonomy distinguishes. -/
inductive ErrKind where
  | CircuitOpenError
  | RateLimitExceededError
  | otherError
  deriving DecidableEq

/-- The default exception filter of `retry.py`'s `retry_with_backoff`:
`exceptions = Exception`, which matches — and therefore retries — every
error kind (no `CircuitOpenError` or `RateLimitExceededError` class exists
anywhere in the source; circuit-open and rate-limit conditions surface as
plain `Exception`s or as `None` returns). -/
def defaultRetryable : ErrKind → Bool := fun _ => true

/-- The classification the spec's words assign to the default policy, for
comparison: everything retryable except `CircuitOpenError` and
`RateLimitExceededError`. -/
def specRetryable : ErrKind → Bool
  | .CircuitOpenError => false
  | .RateLimitExceededError => false
  | .otherError => true

/-! ## The public entry point, from `x_api_client.py` `post_tweet` and
`rate_limiter.py` `rate_limit` (claim C9). -/

/-- The underlying tweepy `create_tweet` interaction as `post_tweet`
observes it: a response carrying a tweet id, a response without data, or a
raised exception. -/
inductive ApiResult where
  | responseWithId (tweet_id : String)
  | responseNoData
  | raisedException
  deriving DecidableEq

/-- Model of `XAPIClient.post_tweet`: if `rate_limiter.acquire()` is false, log a
warning and return `None`; otherwise call the API, returning the tweet id
on success and `None` both when the response has no data and when an
exception is raised (the bare `except` swallows it after logging). -/
def post_tweet (now : ℚ) (ws : List WindowState) (api : ApiResult) :
    Option String × List WindowState :=
  let r := acquire now ws
  if r.1 = false then (none, r.2)
  else
    match api with
    | .responseWithId tweet_id => (some tweet_id, r.2)
    | .responseNoData => (none, r.2)
    | .raisedException => (none, r.2)

/-- Model of `RateLimiter.can_make_request` from `rate_limiter.py`: prune request
timestamps older than the window, then admit and record the request if
fewer than `max_requests` remain. -/
def can_make_request (now : ℚ) (max_requests : ℕ) (time_window : ℚ)
    (requests : List ℚ) : Bool × List ℚ :=
  let pruned := requests.filter (fun rt => now - rt ≤ time_window)
  if pruned.length < max_requests then (true, pruned ++ [now]) else (false, pruned)

/-- The `rate_limit` decorator from `rate_limiter.py`: when
`can_make_request` is false it logs and returns `None` instead of calling
the wrapped function. -/
def rate_limit_call {T : Type} (now : ℚ) (max_requests : ℕ) (time_window : ℚ)
    (requests : List ℚ) (f : T) : Option T × List ℚ :=
  let r := can_make_request now max_requests time_window requests
  if r.1 then (some f, r.2) else (none, r.2)

/-! ### Structural lemmas about `acquire` -/

theorem checkLoop_length (now : ℚ) (ws : List WindowState) :
    (checkLoop now ws).2.length = ws.length := by
  induction ws with
  | nil => rfl
  | cons w ws ih =>
    simp only [checkLoop]
    by_cases h : (refillWindow now w).tokens < 1 <;> simp [h, ih]

theorem acquire_length (now : ℚ) (ws : List WindowState) :
    (acquire now ws).2.length = ws.length := by
  unfold acquire
  by_cases h : (checkLoop now ws).1 <;>
    simp [h, checkLoop_length]

/-- Each window in the state produced by the check loop is either untouched
or is the refill of the corresponding input window. -/
theorem checkLoop_proj (now : ℚ) (ws : List WindowState) :
    List.Forall₂ (fun w1 w => w1 = w ∨ w1 = refillWindow now w) (checkLoop now ws).2 ws := by
  induction ws with
  | nil => exact List.Forall₂.nil
  | cons w ws ih =>
    simp only [checkLoop]
    by_cases h : (refillWindow now w).tokens < 1
    · rw [if_pos h]
      exact List.Forall₂.cons (Or.inr rfl) (List.forall₂_same.mpr (fun x _ => Or.inl rfl))
    · rw [if_neg h]
      exact List.Forall₂.cons (Or.inr rfl) ih

/-- When the check loop passes, every window has been refilled and every
refilled window holds at least one token. -/
theorem checkLoop_pass (now : ℚ) (ws : List WindowState)
    (hpass : (checkLoop now ws).1 = true) :
    (checkLoop now ws).2 = ws.map (refillWindow now) ∧
    ∀ w ∈ ws, 1 ≤ (refillWindow now w).tokens := by
  induction ws with
  | nil => exact ⟨rfl, fun w hw => absurd hw (List.not_mem_nil w)⟩
  | cons w ws ih =>
    simp only [checkLoop] at hpass ⊢
    by_cases h : (refillWindow now w).tokens < 1
    · rw [if_pos h] at hpass; exact absurd hpass (by simp)
    · rw [if_neg h] at hpass ⊢
      obtain ⟨hst, htok⟩ := ih hpass
      refine ⟨by simp [hst], ?_⟩
      intro x hx
      rcases List.mem_cons.mp hx with hx | hx
      · subst hx; exact le_of_not_lt h
      · exact htok x hx

/-- If every window holds at least one token after refill, the check loop
passes. -/
theorem checkLoop_pass_of (now : ℚ) (ws : List WindowState)
    (h : ∀ w ∈ ws, 1 ≤ (refillWindow now w).tokens) :
    (checkLoop now ws).1 = true := by
  induction ws with
  | nil => rfl
  | cons w ws ih =>
    simp only [checkLoop]
    have hw : ¬ (refillWindow now w).tokens < 1 :=
      not_lt.mpr (h w (List.mem_cons_self w ws))
    rw [if_neg hw]
    exact ih (fun x hx => h x (List.mem_cons_of_mem w hx))

/-- If some window fails the refill-and-check, the check loop fails. -/
theorem checkLoop_fail (now : ℚ) (ws : List WindowState) (w : WindowState)
    (hw : w ∈ ws) (htok : (refillWindow now w).tokens < 1) :
    (checkLoop now ws).1 = false := by
  induction ws with
  | nil => exact absurd hw (List.not_mem_nil w)
  | cons x ws ih =>
    simp only [checkLoop]
    by_cases h : (refillWindow now x).tokens < 1
    · rw [if_pos h]
    · rw [if_neg h]
      rcases List.mem_cons.mp hw with hx | hx
      · subst hx; exact absurd htok h
      · exact ih hx

/-- Lemma: `acquire` returns `true` exactly when every window holds at least one
token after its refill (the refill of a window depends only on that window
and the current time, so the early return in the source does not change this
characterisation). -/
theorem acquire_true_iff (now : ℚ) (ws : List WindowState) :
    (acquire now ws).1 = true ↔ ∀ w ∈ ws, 1 ≤ (refillWindow now w).tokens := by
  constructor
  · intro h
    unfold acquire at h
    by_cases hc : (checkLoop now ws).1 = true
    · exact (checkLoop_pass now ws hc).2
    · simp only [Bool.not_eq_true] at hc; simp [hc] at h
  · intro h
    unfold acquire
    rw [if_pos (checkLoop_pass_of now ws h)]

/-- On a granted call, the new state refills every window and deducts one
token from each. -/
theorem acquire_true_state (now : ℚ) (ws : List WindowState)
    (h : (acquire now ws).1 = true) :
    (acquire now ws).2 = ws.map (fun w => deduct (refillWindow now w)) := by
  unfold acquire at h ⊢
  by_cases hc : (checkLoop now ws).1 = true
  · rw [if_pos hc]
    simp only [(checkLoop_pass now ws hc).1, List.map_map]
    rfl
  · simp only [Bool.not_eq_true] at hc; simp [hc] at h

/-- On a denied call, the new state is exactly the state left by the check
loop: no deduction is applied to any window. -/
theorem acquire_false_state (now : ℚ) (ws : List WindowState)
    (h : (acquire now ws).1 = false) :
    (acquire now ws).2 = (checkLoop now ws).2 := by
  unfold acquire at h ⊢
  by_cases hc : (checkLoop now ws).1 = true
  · rw [if_pos hc] at h; simp at h
  · simp only [Bool.not_eq_true] at hc; rw [if_neg (by simp [hc])]

/-! ### Arithmetic facts about a single refill step -/

theorem refill_max_requests (now : ℚ) (w : WindowState) :
    (refillWindow now w).max_requests = w.max_requests := rfl

theorem refill_time_window (now : ℚ) (w : WindowState) :
    (refillWindow now w).time_window = w.time_window := rfl

theorem refill_last_update (now : ℚ) (w : WindowState) :
    (refillWindow now w).last_update = now := rfl

theorem deduct_max_requests (w : WindowState) :
    (deduct w).max_requests = w.max_requests := rfl

theorem deduct_time_window (w : WindowState) :
    (deduct w).time_window = w.time_window := rfl

theorem deduct_last_update (w : WindowState) :
    (deduct w).last_update = w.last_update := rfl

theorem deduct_tokens (w : WindowState) :
    (deduct w).tokens = w.tokens - 1 := rfl

theorem refill_tokens_le_cap (now : ℚ) (w : WindowState) :
    (refillWindow now w).tokens ≤ (w.max_requests : ℚ) :=
  min_le_left _ _

theorem refill_tokens_le_linear (now : ℚ) (w : WindowState) :
    (refillWindow now w).tokens
      ≤ w.tokens + (now - w.last_update) * (w.max_requests : ℚ) / w.time_window :=
  min_le_right _ _

theorem refill_elapsed_nonneg (now : ℚ) (w : WindowState)
    (hlast : w.last_update ≤ now) (hP : 0 < w.time_window) :
    0 ≤ (now - w.last_update) * (w.max_requests : ℚ) / w.time_window := by
  apply div_nonneg _ (le_of_lt hP)
  exact mul_nonneg (by linarith) (Nat.cast_nonneg _)

theorem refill_tokens_nonneg (now : ℚ) (w : WindowState)
    (htok : 0 ≤ w.tokens) (hlast : w.last_update ≤ now) (hP : 0 < w.time_window) :
    0 ≤ (refillWindow now w).tokens := by
  apply le_min (Nat.cast_nonneg _)
  have := refill_elapsed_nonneg now w hlast hP
  linarith

/-- Refill never decreases the token count (monotonicity of the clamped
refill, for a valid window observed at a later time). -/
theorem refill_tokens_mono (now : ℚ) (w : WindowState)
    (hcap : w.tokens ≤ (w.max_requests : ℚ))
    (hlast : w.last_update ≤ now) (hP : 0 < w.time_window) :
    w.tokens ≤ (refillWindow now w).tokens := by
  apply le_min hcap
  have := refill_elapsed_nonneg now w hlast hP
  linarith

/-- Two consecutive clamped refills collapse into one: refilling at `t` and
then at a later `t'` yields the same window as refilling once at `t'`. -/
theorem refill_refill (t t' : ℚ) (w : WindowState)
    (hP : 0 < w.time_window) (htt : t ≤ t') :
    refillWindow t' (refillWindow t w) = refillWindow t' w := by
  cases w with
  | mk cap P tok last =>
    simp only [refillWindow, WindowState.mk.injEq, and_true]
    have hd : 0 ≤ (t' - t) * (cap : ℚ) / P :=
      div_nonneg (mul_nonneg (by linarith) (Nat.cast_nonneg _)) (le_of_lt hP)
    have harith : tok + (t - last) * (cap : ℚ) / P + (t' - t) * (cap : ℚ) / P
        = tok + (t' - last) * (cap : ℚ) / P := by
      field_simp
      ring
    rcases le_total (tok + (t - last) * (cap : ℚ) / P) (cap : ℚ) with h | h
    · rw [min_eq_right h, harith]
      exact ⟨trivial, trivial, rfl⟩
    · rw [min_eq_left h]
      rw [min_eq_left (by linarith), min_eq_left (by linarith)]
      exact ⟨trivial, trivial, rfl⟩

/-! ### Validity invariant of the bucket state (claim C4) -/


theorem forall₂_mem_left {α β : Type} {R : α → β → Prop} {l1 : List α} {l2 : List β}
    (h : List.Forall₂ R l1 l2) {a : α} (ha : a ∈ l1) : ∃ b ∈ l2, R a b := by
  induction h with
  | nil => exact absurd ha (List.not_mem_nil a)
  | cons hr _ ih =>
    rcases List.mem_cons.mp ha with h0 | h0
    · subst h0; exact ⟨_, List.mem_cons_self _ _, hr⟩
    · obtain ⟨b, hb, hrb⟩ := ih h0
      exact ⟨b, List.mem_cons_of_mem _ hb, hrb⟩

/-- A single `acquire` call keeps every window well-formed. -/
theorem acquire_preserves_good (now now' : ℚ) (hnn : now ≤ now')
    (ws : List WindowState) (h : ∀ w ∈ ws, GoodWindow now w) :
    ∀ w1 ∈ (acquire now ws).2, GoodWindow now' w1 := by
  intro w1 hw1
  by_cases hres : (acquire now ws).1 = true
  · rw [acquire_true_state now ws hres] at hw1
    obtain ⟨w, hw, hmap⟩ := List.mem_map.mp hw1
    obtain ⟨hP, htok0, htokc, hlast⟩ := h w hw
    have hge1 : 1 ≤ (refillWindow now w).tokens :=
      (acquire_true_iff now ws).mp hres w hw
    have hle : (refillWindow now w).tokens ≤ (w.max_requests : ℚ) :=
      refill_tokens_le_cap now w
    subst hmap
    refine ⟨hP, ?_, ?_, ?_⟩
    · rw [deduct_tokens]; linarith
    · rw [deduct_tokens, deduct_max_requests, refill_max_requests]; linarith
    · rw [deduct_last_update, refill_last_update]; exact hnn
  · have hres' : (acquire now ws).1 = false := by
      simpa [Bool.not_eq_true] using hres
    rw [acquire_false_state now ws hres'] at hw1
    obtain ⟨w, hw, hrel⟩ := forall₂_mem_left (checkLoop_proj now ws) hw1
    obtain ⟨hP, htok0, htokc, hlast⟩ := h w hw
    rcases hrel with hrel | hrel
    · subst hrel; exact ⟨hP, htok0, htokc, le_trans hlast hnn⟩
    · subst hrel
      refine ⟨hP, refill_tokens_nonneg now w htok0 hlast hP, ?_, ?_⟩
      · simp only [refill_max_requests]; exact refill_tokens_le_cap now w
      · simp only [refill_last_update]; exact hnn

/-- Along any run at nondecreasing timestamps, every window stays
well-formed. -/
theorem runState_good : ∀ (ts : List ℚ) (ws : List WindowState) (now : ℚ),
    List.Pairwise (· ≤ ·) ts → (∀ t ∈ ts, now ≤ t) →
    (∀ w ∈ ws, GoodWindow now w) →
    ∀ w1 ∈ runState ts ws, 0 ≤ w1.tokens ∧ w1.tokens ≤ (w1.max_requests : ℚ)
  | [], ws, now, _, _, h, w1, hw1 => ⟨(h w1 hw1).2.1, (h w1 hw1).2.2.1⟩
  | t :: ts, ws, now, hsort, hts, h, w1, hw1 => by
    have ht : now ≤ t := hts t (List.mem_cons_self t ts)
    have hstep : ∀ w ∈ (acquire t ws).2, GoodWindow t w :=
      acquire_preserves_good t t (le_refl t) ws
        (fun w hw => by
          obtain ⟨hP, h0, hc, hl⟩ := h w hw
          exact ⟨hP, h0, hc, le_trans hl ht⟩)
    exact runState_good ts (acquire t ws).2 t hsort.of_cons
      (fun t1 ht1 => List.rel_of_pairwise_cons hsort ht1) hstep w1 hw1

/-! ### Sliding-window grant counting (claim C1) -/

theorem grantsIn_cons (a b t : ℚ) (ts : List ℚ) (ws : List WindowState) :
    grantsIn a b (t :: ts) ws
      = (if a ≤ t ∧ t ≤ b ∧ (acquire t ws).1 = true then 1 else 0)
        + grantsIn a b ts (acquire t ws).2 := rfl

/-- No grants are counted once every remaining timestamp lies beyond the
right end of the interval. -/
theorem grantsIn_eq_zero (a b : ℚ) : ∀ (ts : List ℚ) (ws : List WindowState),
    (∀ t ∈ ts, b < t) → grantsIn a b ts ws = 0
  | [], _, _ => rfl
  | t :: ts, ws, h => by
    rw [grantsIn_cons]
    have hbt : b < t := h t (List.mem_cons_self t ts)
    rw [if_neg (by intro hc; exact absurd hc.2.1 (not_le.mpr hbt))]
    rw [grantsIn_eq_zero a b ts (acquire t ws).2
      (fun t1 ht1 => h t1 (List.mem_cons_of_mem t ht1))]

/-- How a single `acquire` call acts on the window at index `i`: on a grant
it refills and deducts (and the refilled window held at least one token); on
a denial the window is either untouched or merely refilled. -/
theorem acquire_get_cases (now : ℚ) (ws : List WindowState) (i : ℕ)
    (h1 : i < ws.length) (h2 : i < (acquire now ws).2.length) :
    ((acquire now ws).1 = true ∧
      (acquire now ws).2[i] = deduct (refillWindow now ws[i]) ∧
      1 ≤ (refillWindow now ws[i]).tokens) ∨
    ((acquire now ws).1 = false ∧
      ((acquire now ws).2[i] = ws[i] ∨
       (acquire now ws).2[i] = refillWindow now ws[i])) := by
  by_cases hres : (acquire now ws).1 = true
  · left
    refine ⟨hres, ?_, (acquire_true_iff now ws).mp hres _ (List.getElem_mem h1)⟩
    have hst := acquire_true_state now ws hres
    simp only [List.getElem_of_eq hst h2, List.getElem_map]
  · right
    have hres' : (acquire now ws).1 = false := by simpa [Bool.not_eq_true] using hres
    refine ⟨hres', ?_⟩
    have hst := acquire_false_state now ws hres'
    have hproj := checkLoop_proj now ws
    rw [List.forall₂_iff_get] at hproj
    have := hproj.2 i (by simpa [checkLoop_length] using h1) h1
    simpa [List.getElem_of_eq hst h2, List.get_eq_getElem] using this

theorem elapsed_split (l x b c P : ℚ) :
    (x - l) * c / P + (b - x) * c / P = (b - l) * c / P := by
  rw [div_add_div_same]
  congr 1
  ring

theorem elapsed_le_cap (t b c P : ℚ) (hP : 0 < P) (hc : 0 ≤ c) (h : b - t ≤ P) :
    (b - t) * c / P ≤ c := by
  rw [div_le_iff₀ hP]
  calc (b - t) * c ≤ P * c := mul_le_mul_of_nonneg_right h hc
  _ = c * P := mul_comm P c

/-- Potential-function bound: once the window at index `i` has its last
refill no later than the right end `b` of the counting interval, the number
of further grants is at most its current tokens plus what can flow in before
`b`. -/
theorem grantsIn_inner : ∀ (ts : List ℚ) (ws : List WindowState) (i : ℕ)
    (hi : i < ws.length) (a b : ℚ),
    List.Pairwise (· ≤ ·) ts →
    (∀ t ∈ ts, ws[i].last_update ≤ t) →
    0 < ws[i].time_window →
    0 ≤ ws[i].tokens →
    ws[i].last_update ≤ b →
    (grantsIn a b ts ws : ℚ)
      ≤ ws[i].tokens
        + (b - ws[i].last_update) * (ws[i].max_requests : ℚ) / ws[i].time_window
  | [], ws, i, hi, a, b, _, _, hP, htok, hlb => by
    have hpos : 0 ≤ (b - ws[i].last_update) * (ws[i].max_requests : ℚ) / ws[i].time_window :=
      div_nonneg (mul_nonneg (by linarith) (Nat.cast_nonneg _)) (le_of_lt hP)
    show ((0 : ℕ) : ℚ) ≤ _
    push_cast
    linarith
  | t :: ts, ws, i, hi, a, b, hsort, hts, hP, htok, hlb => by
    have hi2 : i < (acquire t ws).2.length := by rw [acquire_length]; exact hi
    have hlt : ws[i].last_update ≤ t := hts t (List.mem_cons_self t ts)
    have hsort2 := hsort.of_cons
    have hts2 : ∀ t1 ∈ ts, t ≤ t1 := fun t1 h => List.rel_of_pairwise_cons hsort h
    rw [grantsIn_cons]
    push_cast
    rcases le_or_lt t b with htb | htb
    · rcases acquire_get_cases t ws i hi hi2 with ⟨hres, hstate, hge1⟩ | ⟨hres, hstate⟩
      · have hIH := grantsIn_inner ts (acquire t ws).2 i hi2 a b hsort2
          (fun t1 h => by
            rw [hstate, deduct_last_update, refill_last_update]; exact hts2 t1 h)
          (by rw [hstate, deduct_time_window, refill_time_window]; exact hP)
          (by rw [hstate, deduct_tokens]; linarith)
          (by rw [hstate, deduct_last_update, refill_last_update]; exact htb)
        simp only [hstate, deduct_tokens, deduct_last_update, deduct_time_window,
          deduct_max_requests, refill_last_update, refill_time_window,
          refill_max_requests] at hIH
        have hlin := refill_tokens_le_linear t ws[i]
        have hsplit := elapsed_split ws[i].last_update t b
          ((ws[i].max_requests : ℚ)) ws[i].time_window
        have hind : (if a ≤ t ∧ t ≤ b ∧ (acquire t ws).1 = true then (1:ℚ) else 0) ≤ 1 := by
          split <;> norm_num
        linarith
      · rw [if_neg (fun hc => by rw [hres] at hc; exact Bool.false_ne_true hc.2.2)]
        rcases hstate with hstate | hstate
        · have hIH := grantsIn_inner ts (acquire t ws).2 i hi2 a b hsort2
            (fun t1 h => by rw [hstate]; exact le_trans hlt (hts2 t1 h))
            (by rw [hstate]; exact hP)
            (by rw [hstate]; exact htok)
            (by rw [hstate]; exact hlb)
          rw [hstate] at hIH
          linarith
        · have hIH := grantsIn_inner ts (acquire t ws).2 i hi2 a b hsort2
            (fun t1 h => by rw [hstate, refill_last_update]; exact hts2 t1 h)
            (by rw [hstate, refill_time_window]; exact hP)
            (by rw [hstate]; exact refill_tokens_nonneg t ws[i] htok hlt hP)
            (by rw [hstate, refill_last_update]; exact htb)
          simp only [hstate, refill_last_update, refill_time_window,
            refill_max_requests] at hIH
          have hlin := refill_tokens_le_linear t ws[i]
          have hsplit := elapsed_split ws[i].last_update t b
            ((ws[i].max_requests : ℚ)) ws[i].time_window
          linarith
    · rw [if_neg (fun hc => absurd hc.2.1 (not_le.mpr htb))]
      rw [grantsIn_eq_zero a b ts (acquire t ws).2
        (fun t1 h => lt_of_lt_of_le htb (hts2 t1 h))]
      have hpos : 0 ≤ (b - ws[i].last_update) * (ws[i].max_requests : ℚ) / ws[i].time_window :=
        div_nonneg (mul_nonneg (by linarith) (Nat.cast_nonneg _)) (le_of_lt hP)
      push_cast
      linarith

/-- Main per-window bound: along any run at nondecreasing timestamps, a
valid window at index `i` admits at most `2 * max_requests` grants whose
timestamps lie in any interval of length at most `time_window`. -/
theorem grantsIn_window_bound : ∀ (ts : List ℚ) (ws : List WindowState) (i : ℕ)
    (hi : i < ws.length) (a b : ℚ),
    List.Pairwise (· ≤ ·) ts →
    (∀ t ∈ ts, ws[i].last_update ≤ t) →
    0 < ws[i].time_window →
    0 ≤ ws[i].tokens →
    ws[i].tokens ≤ (ws[i].max_requests : ℚ) →
    b - a ≤ ws[i].time_window →
    (grantsIn a b ts ws : ℚ) ≤ 2 * (ws[i].max_requests : ℚ)
  | [], ws, i, hi, a, b, _, _, _, _, _, _ => by
    show ((0 : ℕ) : ℚ) ≤ _
    push_cast
    positivity
  | t :: ts, ws, i, hi, a, b, hsort, hts, hP, htok, hcap, hba => by
    have hi2 : i < (acquire t ws).2.length := by rw [acquire_length]; exact hi
    have hlt : ws[i].last_update ≤ t := hts t (List.mem_cons_self t ts)
    have hsort2 := hsort.of_cons
    have hts2 : ∀ t1 ∈ ts, t ≤ t1 := fun t1 h => List.rel_of_pairwise_cons hsort h
    rw [grantsIn_cons]
    push_cast
    rcases lt_or_le t a with hta | hta
    · -- before the interval: nothing counted, keep the outer invariant
      rw [if_neg (fun hc => absurd hc.1 (not_le.mpr hta))]
      rcases acquire_get_cases t ws i hi hi2 with ⟨hres, hstate, hge1⟩ | ⟨hres, hstate⟩
      · have hIH := grantsIn_window_bound ts (acquire t ws).2 i hi2 a b hsort2
          (fun t1 h => by
            rw [hstate, deduct_last_update, refill_last_update]; exact hts2 t1 h)
          (by rw [hstate, deduct_time_window, refill_time_window]; exact hP)
          (by rw [hstate, deduct_tokens]; linarith)
          (by rw [hstate, deduct_tokens, deduct_max_requests, refill_max_requests]
              have := refill_tokens_le_cap t ws[i]
              linarith)
          (by rw [hstate, deduct_time_window, refill_time_window]; exact hba)
        rw [hstate, deduct_max_requests, refill_max_requests] at hIH
        linarith
      · rcases hstate with hstate | hstate
        · have hIH := grantsIn_window_bound ts (acquire t ws).2 i hi2 a b hsort2
            (fun t1 h => by rw [hstate]; exact le_trans hlt (hts2 t1 h))
            (by rw [hstate]; exact hP) (by rw [hstate]; exact htok)
            (by rw [hstate]; exact hcap) (by rw [hstate]; exact hba)
          rw [hstate] at hIH
          linarith
        · have hIH := grantsIn_window_bound ts (acquire t ws).2 i hi2 a b hsort2
            (fun t1 h => by rw [hstate, refill_last_update]; exact hts2 t1 h)
            (by rw [hstate, refill_time_window]; exact hP)
            (by rw [hstate]; exact refill_tokens_nonneg t ws[i] htok hlt hP)
            (by rw [hstate, refill_max_requests]; exact refill_tokens_le_cap t ws[i])
            (by rw [hstate, refill_time_window]; exact hba)
          rw [hstate, refill_max_requests] at hIH
          linarith
    · rcases le_or_lt t b with htb | htb
      · -- first call inside the interval: the clamp bounds the stock, then
        -- switch to the potential argument
        have hflow : (b - t) * (ws[i].max_requests : ℚ) / ws[i].time_window
            ≤ (ws[i].max_requests : ℚ) :=
          elapsed_le_cap t b _ _ hP (Nat.cast_nonneg _) (by linarith)
        rcases acquire_get_cases t ws i hi hi2 with ⟨hres, hstate, hge1⟩ | ⟨hres, hstate⟩
        · have hinner := grantsIn_inner ts (acquire t ws).2 i hi2 a b hsort2
            (fun t1 h => by
              rw [hstate, deduct_last_update, refill_last_update]; exact hts2 t1 h)
            (by rw [hstate, deduct_time_window, refill_time_window]; exact hP)
            (by rw [hstate, deduct_tokens]; linarith)
            (by rw [hstate, deduct_last_update, refill_last_update]; exact htb)
          simp only [hstate, deduct_tokens, deduct_last_update, deduct_time_window,
            deduct_max_requests, refill_last_update, refill_time_window,
            refill_max_requests] at hinner
          have hrcap := refill_tokens_le_cap t ws[i]
          have hind : (if a ≤ t ∧ t ≤ b ∧ (acquire t ws).1 = true then (1:ℚ) else 0) ≤ 1 := by
            split <;> norm_num
          linarith
        · rw [if_neg (fun hc => by rw [hres] at hc; exact Bool.false_ne_true hc.2.2)]
          rcases hstate with hstate | hstate
          · have hIH := grantsIn_window_bound ts (acquire t ws).2 i hi2 a b hsort2
              (fun t1 h => by rw [hstate]; exact le_trans hlt (hts2 t1 h))
              (by rw [hstate]; exact hP) (by rw [hstate]; exact htok)
              (by rw [hstate]; exact hcap) (by rw [hstate]; exact hba)
            rw [hstate] at hIH
            linarith
          · have hinner := grantsIn_inner ts (acquire t ws).2 i hi2 a b hsort2
              (fun t1 h => by rw [hstate, refill_last_update]; exact hts2 t1 h)
              (by rw [hstate, refill_time_window]; exact hP)
              (by rw [hstate]; exact refill_tokens_nonneg t ws[i] htok hlt hP)
              (by rw [hstate, refill_last_update]; exact htb)
            simp only [hstate, refill_last_update, refill_time_window,
              refill_max_requests] at hinner
            have hrcap := refill_tokens_le_cap t ws[i]
            linarith
      · rw [if_neg (fun hc => absurd hc.2.1 (not_le.mpr htb))]
        rw [grantsIn_eq_zero a b ts (acquire t ws).2
          (fun t1 h => lt_of_lt_of_le htb (hts2 t1 h))]
        push_cast
        have : (0:ℚ) ≤ (ws[i].max_requests : ℚ) := Nat.cast_nonneg _
        linarith

theorem initWindows_length (t0 : ℚ) (cfg : List (ℕ × ℚ)) :
    (initWindows t0 cfg).length = cfg.length := by
  simp [initWindows]

/-- Claim C1, counterexample: a single window with `max_requests = 2` and
`period_seconds = 10`, with `acquire` calls at times `0, 0, 5`, grants all
three calls; the interval `[0, 10]` has length one period yet contains 3 > 2
grants (the token bucket permits bursts of up to twice the capacity in a
sliding window, unlike a fixed-window counter). -/
theorem sliding_window_claim_false :
    ¬ (grantsIn 0 (0 + 10) [0, 0, 5] (initWindows 0 [(2, 10)]) ≤ 2) := by
  norm_num [grantsIn, acquire, checkLoop, refillWindow, deduct, initWindows]

/-- Claim C1 (amended): for every configuration of windows and every
sequence of `acquire` calls at nondecreasing timestamps, the number of calls
returning `true` whose timestamps fall inside any interval of length
`period_seconds` never exceeds `2 * max_requests` of that window,
simultaneously for every configured window. -/
theorem sliding_window_grants_le (t0 a : ℚ) (cfg : List (ℕ × ℚ)) (ts : List ℚ)
    (i : ℕ) (hi : i < cfg.length)
    (hP : ∀ c ∈ cfg, 0 < c.2)
    (hsort : List.Pairwise (· ≤ ·) ts)
    (hts : ∀ t ∈ ts, t0 ≤ t) :
    grantsIn a (a + cfg[i].2) ts (initWindows t0 cfg) ≤ 2 * cfg[i].1 := by
  have hi2 : i < (initWindows t0 cfg).length := by rw [initWindows_length]; exact hi
  have hwi : (initWindows t0 cfg)[i] = ⟨cfg[i].1, cfg[i].2, (cfg[i].1 : ℚ), t0⟩ := by
    simp [initWindows]
  have h := grantsIn_window_bound ts (initWindows t0 cfg) i hi2 a (a + cfg[i].2)
    hsort
    (fun t ht => by rw [hwi]; exact hts t ht)
    (by rw [hwi]; exact hP cfg[i] (List.getElem_mem hi))
    (by rw [hwi]; exact Nat.cast_nonneg _)
    (by rw [hwi])
    (by rw [hwi]; simp)
  rw [hwi] at h
  exact_mod_cast h

/-- Claim C3: the all-or-nothing contract of a single `acquire` call on a
well-formed state: the call is granted exactly when every window holds at
least one token after its refill; on a grant every window is refilled and
has one token deducted; on a denial the state is exactly what the check loop
left (no deduction anywhere) and no window's token count decreases. -/
theorem acquire_all_or_nothing (now : ℚ) (ws : List WindowState)
    (hgood : ∀ w ∈ ws, GoodWindow now w) :
    ((acquire now ws).1 = true ↔ ∀ w ∈ ws, 1 ≤ (refillWindow now w).tokens) ∧
    ((acquire now ws).1 = true →
      (acquire now ws).2 = ws.map (fun w => deduct (refillWindow now w))) ∧
    ((acquire now ws).1 = false →
      (acquire now ws).2 = (checkLoop now ws).2 ∧
      List.Forall₂ (fun w1 w => w.tokens ≤ w1.tokens) (acquire now ws).2 ws) := by
  refine ⟨acquire_true_iff now ws, acquire_true_state now ws, fun hfail => ?_⟩
  refine ⟨acquire_false_state now ws hfail, ?_⟩
  rw [acquire_false_state now ws hfail]
  have hproj := checkLoop_proj now ws
  rw [List.forall₂_iff_get] at hproj ⊢
  refine ⟨hproj.1, fun i h1 h2 => ?_⟩
  have hrel := hproj.2 i h1 h2
  obtain ⟨hP, h0, hc, hl⟩ := hgood (ws.get ⟨i, h2⟩) (ws.get_mem i h2)
  rcases hrel with hrel | hrel
  · rw [hrel]
  · rw [hrel]
    exact refill_tokens_mono now _ hc hl hP

/-- Claim C4: for every bucket state reachable from construction by
`acquire` calls at nondecreasing timestamps, every window's token count
stays between `0` and its capacity, and a refill step never decreases a
window's token count. -/
theorem window_invariant (t0 : ℚ) (cfg : List (ℕ × ℚ)) (ts : List ℚ)
    (hP : ∀ c ∈ cfg, 0 < c.2)
    (hsort : List.Pairwise (· ≤ ·) ts)
    (hts : ∀ t ∈ ts, t0 ≤ t) :
    (∀ w ∈ runState ts (initWindows t0 cfg),
      0 ≤ w.tokens ∧ w.tokens ≤ (w.max_requests : ℚ)) ∧
    (∀ (w : WindowState) (now : ℚ), w.tokens ≤ (w.max_requests : ℚ) →
      w.last_update ≤ now → 0 < w.time_window →
      w.tokens ≤ (refillWindow now w).tokens) := by
  constructor
  · apply runState_good ts (initWindows t0 cfg) t0 hsort hts
    intro w hw
    obtain ⟨c, hc, hmap⟩ := List.mem_map.mp hw
    subst hmap
    exact ⟨hP c hc, Nat.cast_nonneg _, le_refl _, le_refl _⟩
  · intro w now hc hl hPw
    exact refill_tokens_mono now w hc hl hPw

theorem sliding_window_grants_le_witness :
    grantsIn 0 (0 + 10) [0, 0, 5] (initWindows 0 [(2, 10)]) ≤ 2 * 2 :=
  sliding_window_grants_le 0 0 [(2, 10)] [0, 0, 5] 0 (by norm_num)
    (by intro c hc; rw [List.mem_singleton] at hc; rw [hc]; norm_num)
    (by norm_num [List.pairwise_cons])
    (by
      intro t ht
      simp only [List.mem_cons, List.mem_singleton, List.not_mem_nil, or_false] at ht
      rcases ht with h | h | h <;> norm_num [h])

theorem acquire_all_or_nothing_witness :
    (acquire 0 (initWindows 0 [(2, 10)])).1 = true :=
  ((acquire_all_or_nothing 0 (initWindows 0 [(2, 10)])
    (by
      intro w hw
      rw [initWindows, List.map_singleton, List.mem_singleton] at hw
      rw [hw]
      exact ⟨by norm_num, by norm_num, by norm_num, le_refl 0⟩)).1).mpr
    (by
      intro w hw
      rw [initWindows, List.map_singleton, List.mem_singleton] at hw
      rw [hw]
      norm_num [refillWindow])

theorem window_invariant_witness :
    0 ≤ (runState [0, 5] (initWindows 0 [(2, 10)])).headI.tokens := by
  have h := window_invariant 0 [(2, 10)] [0, 5]
    (by intro c hc; rw [List.mem_singleton] at hc; rw [hc]; norm_num)
    (by norm_num [List.pairwise_cons])
    (by
      intro t ht
      simp only [List.mem_cons, List.mem_singleton, List.not_mem_nil, or_false] at ht
      rcases ht with h | h <;> norm_num [h])
  refine (h.1 (runState [0, 5] (initWindows 0 [(2, 10)])).headI ?_).1
  norm_num [runState, acquire, checkLoop, refillWindow, deduct, initWindows]

/-! ### A denied `acquire` call is observationally a no-op (claim C10) -/


theorem equivFrom_of_eq (u : ℚ) {w1 w : WindowState} (h : w1 = w) :
    EquivFrom u w1 w := fun t _ => by rw [h]

theorem equivFrom_of_refill (u : ℚ) (w : WindowState) (hP : 0 < w.time_window) :
    EquivFrom u (refillWindow u w) w :=
  fun t ht => refill_refill u t w hP ht

theorem equivFrom_mono (u v : ℚ) (huv : u ≤ v) {w1 w : WindowState}
    (h : EquivFrom u w1 w) : EquivFrom v w1 w :=
  fun t ht => h t (le_trans huv ht)

/-- The check loop cannot distinguish two pointwise-indistinguishable
states: it returns the same decision, leaves indistinguishable states, and
on a pass leaves literally equal states. -/
theorem checkLoop_congr (u t1 : ℚ) (hut : u ≤ t1) :
    ∀ (ws1 ws : List WindowState), List.Forall₂ (EquivFrom u) ws1 ws →
    (checkLoop t1 ws1).1 = (checkLoop t1 ws).1 ∧
    List.Forall₂ (EquivFrom t1) (checkLoop t1 ws1).2 (checkLoop t1 ws).2 ∧
    ((checkLoop t1 ws1).1 = true → (checkLoop t1 ws1).2 = (checkLoop t1 ws).2) := by
  intro ws1 ws h
  induction h with
  | nil => exact ⟨rfl, List.Forall₂.nil, fun _ => rfl⟩
  | @cons w1 w l1 l hrw hrest ih =>
    have hw : refillWindow t1 w1 = refillWindow t1 w := hrw t1 hut
    simp only [checkLoop, hw]
    by_cases hc : (refillWindow t1 w).tokens < 1
    · rw [if_pos hc, if_pos hc]
      refine ⟨rfl, List.Forall₂.cons (equivFrom_of_eq t1 rfl) ?_, fun habs => by simp at habs⟩
      exact List.Forall₂.imp (fun a b hab => equivFrom_mono u t1 hut hab) hrest
    · rw [if_neg hc, if_neg hc]
      obtain ⟨hb, hf, he⟩ := ih
      refine ⟨hb, List.Forall₂.cons (equivFrom_of_eq t1 rfl) hf, fun hpass => ?_⟩
      rw [he hpass]

/-- Lemma: `acquire` cannot distinguish two pointwise-indistinguishable states. -/
theorem acquire_congr (u t1 : ℚ) (hut : u ≤ t1)
    (ws1 ws : List WindowState) (h : List.Forall₂ (EquivFrom u) ws1 ws) :
    (acquire t1 ws1).1 = (acquire t1 ws).1 ∧
    List.Forall₂ (EquivFrom t1) (acquire t1 ws1).2 (acquire t1 ws).2 := by
  obtain ⟨hb, hf, he⟩ := checkLoop_congr u t1 hut ws1 ws h
  simp only [acquire]
  by_cases hc : (checkLoop t1 ws).1 = true
  · rw [hb, if_pos hc, if_pos hc]
    refine ⟨rfl, ?_⟩
    rw [he (hb.trans hc)]
    exact List.forall₂_same.mpr (fun x _ => equivFrom_of_eq t1 rfl)
  · have hc' : (checkLoop t1 ws).1 = false := by simpa [Bool.not_eq_true] using hc
    rw [hb, if_neg (by simp [hc']), if_neg (by simp [hc'])]
    exact ⟨rfl, hf⟩

/-- Runs over timestamps that never go backwards produce identical result
sequences from pointwise-indistinguishable states. -/
theorem runResults_congr : ∀ (ts : List ℚ) (u : ℚ) (ws1 ws : List WindowState),
    List.Forall₂ (EquivFrom u) ws1 ws →
    List.Pairwise (· ≤ ·) ts → (∀ t ∈ ts, u ≤ t) →
    runResults ts ws1 = runResults ts ws
  | [], _, _, _, _, _, _ => rfl
  | t :: ts, u, ws1, ws, h, hsort, hts => by
    have hut : u ≤ t := hts t (List.mem_cons_self t ts)
    obtain ⟨hb, hf⟩ := acquire_congr u t hut ws1 ws h
    simp only [runResults, hb]
    rw [runResults_congr ts t (acquire t ws1).2 (acquire t ws).2 hf hsort.of_cons
      (fun t1 ht1 => List.rel_of_pairwise_cons hsort ht1)]

/-- Claim C10: an `acquire` call that returns `false` is observationally a
no-op: every subsequent `acquire` call at the same (nondecreasing, not
earlier) timestamps returns exactly the results it would have returned had
the failed call never happened. -/
theorem failed_acquire_noop (t : ℚ) (ws : List WindowState) (ts : List ℚ)
    (hP : ∀ w ∈ ws, 0 < w.time_window)
    (hfail : (acquire t ws).1 = false)
    (hsort : List.Pairwise (· ≤ ·) ts)
    (hts : ∀ t1 ∈ ts, t ≤ t1) :
    runResults ts (acquire t ws).2 = runResults ts ws := by
  apply runResults_congr ts t (acquire t ws).2 ws _ hsort hts
  rw [acquire_false_state t ws hfail]
  have hproj := checkLoop_proj t ws
  rw [List.forall₂_iff_get] at hproj ⊢
  refine ⟨hproj.1, fun i h1 h2 => ?_⟩
  have hPw : 0 < (ws.get ⟨i, h2⟩).time_window := hP _ (ws.get_mem i h2)
  rcases hproj.2 i h1 h2 with hrel | hrel
  · exact equivFrom_of_eq t hrel
  · rw [hrel]
    exact equivFrom_of_refill t _ hPw

theorem failed_acquire_noop_witness :
    runResults [1, 2] (acquire 0 (acquire 0 (initWindows 0 [(1, 10)])).2).2
      = runResults [1, 2] (acquire 0 (initWindows 0 [(1, 10)])).2 := by
  apply failed_acquire_noop 0 (acquire 0 (initWindows 0 [(1, 10)])).2 [1, 2]
  · intro w hw
    norm_num [acquire, checkLoop, refillWindow, deduct, initWindows] at hw
    rw [hw]
    norm_num
  · norm_num [acquire, checkLoop, refillWindow, deduct, initWindows]
  · norm_num [List.pairwise_cons]
  · intro t1 ht1
    simp only [List.mem_cons, List.mem_singleton, List.not_mem_nil, or_false] at ht1
    rcases ht1 with h | h <;> norm_num [h]


/-- Claim C5: for an `OPEN` breaker, `can_execute` returns `false` and
leaves the breaker unchanged strictly before the recovery deadline, and
returns `true` transitioning to `HALF_OPEN` at or after the deadline. -/
theorem can_execute_open (now : ℚ) (cb : CircuitBreaker)
    (hopen : cb.state = .OPEN) :
    (now - cb.last_failure_time < cb.recovery_timeout →
      can_execute now cb = (false, cb)) ∧
    (cb.recovery_timeout ≤ now - cb.last_failure_time →
      can_execute now cb = (true, { cb with state := .HALF_OPEN })) := by
  unfold can_execute
  rw [hopen]
  constructor
  · intro h
    rw [if_neg (not_le.mpr h)]
  · intro h
    rw [if_pos h]

theorem can_execute_open_witness :
    can_execute 130 ⟨2, 60, .OPEN, 2, 100⟩ = (false, ⟨2, 60, .OPEN, 2, 100⟩) ∧
    can_execute 160 ⟨2, 60, .OPEN, 2, 100⟩ = (true, ⟨2, 60, .HALF_OPEN, 2, 100⟩) :=
  ⟨(can_execute_open 130 ⟨2, 60, .OPEN, 2, 100⟩ rfl).1 (by norm_num),
   (can_execute_open 160 ⟨2, 60, .OPEN, 2, 100⟩ rfl).2 (by norm_num)⟩


theorem breakerStep_inv (cb : CircuitBreaker) (e : BreakerEvent)
    (h : BreakerInv cb) : BreakerInv (breakerStep cb e) := by
  cases e with
  | canExecute now =>
    simp only [breakerStep, can_execute]
    cases hs : cb.state with
    | CLOSED => simpa [hs] using h
    | OPEN =>
      by_cases hc : cb.recovery_timeout ≤ now - cb.last_failure_time
      · rw [if_pos hc]
        intro habs
        simp at habs
      · rw [if_neg hc]
        exact h
    | HALF_OPEN => simpa [hs] using h
  | recordSuccess =>
    intro habs
    simp [breakerStep, record_success] at habs
  | recordFailure now =>
    simp only [breakerStep, record_failure]
    by_cases hc : cb.failure_threshold ≤ cb.failure_count + 1
    · rw [if_pos hc]
      exact fun _ => hc
    · rw [if_neg hc]
      intro hs
      exact le_trans (h hs) (Nat.le_succ _)

theorem breakerStep_threshold (cb : CircuitBreaker) (e : BreakerEvent) :
    (breakerStep cb e).failure_threshold = cb.failure_threshold := by
  cases e with
  | canExecute now =>
    simp only [breakerStep, can_execute]
    cases cb.state with
    | CLOSED => rfl
    | OPEN =>
      by_cases hc : cb.recovery_timeout ≤ now - cb.last_failure_time
      · rw [if_pos hc]
      · rw [if_neg hc]
    | HALF_OPEN => rfl
  | recordSuccess => rfl
  | recordFailure now =>
    simp only [breakerStep, record_failure]
    by_cases hc : cb.failure_threshold ≤ cb.failure_count + 1
    · rw [if_pos hc]
    · rw [if_neg hc]

theorem breakerRun_inv : ∀ (evs : List BreakerEvent) (cb : CircuitBreaker),
    BreakerInv cb → BreakerInv (breakerRun evs cb)
  | [], _, h => h
  | e :: evs, cb, h =>
    breakerRun_inv evs (breakerStep cb e) (breakerStep_inv cb e h)

theorem breakerRun_threshold : ∀ (evs : List BreakerEvent) (cb : CircuitBreaker),
    (breakerRun evs cb).failure_threshold = cb.failure_threshold
  | [], _ => rfl
  | e :: evs, cb =>
    (breakerRun_threshold evs (breakerStep cb e)).trans (breakerStep_threshold cb e)

/-- Claim C6: in every state reachable from the initial `CLOSED` breaker by
any sequence of `can_execute`, `record_success`, `record_failure` calls,
`state = OPEN` implies `failure_count >= failure_threshold`. -/
theorem open_implies_threshold (threshold : ℕ) (timeout : ℚ)
    (evs : List BreakerEvent)
    (h : (breakerRun evs (initBreaker threshold timeout)).state = .OPEN) :
    threshold ≤ (breakerRun evs (initBreaker threshold timeout)).failure_count := by
  have hinv := breakerRun_inv evs (initBreaker threshold timeout)
    (fun habs => by simp [initBreaker] at habs)
  have h2 := hinv h
  rw [breakerRun_threshold evs (initBreaker threshold timeout)] at h2
  exact h2

theorem open_implies_threshold_witness :
    2 ≤ (breakerRun [.recordFailure 0, .recordFailure 1] (initBreaker 2 60)).failure_count :=
  open_implies_threshold 2 60 [.recordFailure 0, .recordFailure 1] (by decide)


theorem retryAux_fail {E : Type} (retryable : E → Bool) (errs : ℕ → E)
    (hr : ∀ e, retryable e = true) (factor max_delay : ℚ) :
    ∀ (n k : ℕ) (d : ℚ),
    Retry.retryAux retryable (failingOp errs) factor max_delay k d n
      = ⟨.maxRetriesExceeded (errs (k + n)), n + 1, delayList factor max_delay d n⟩
  | 0, k, d => by
    simp only [Retry.retryAux, failingOp, hr (errs k), if_pos, delayList]
    norm_num
  | n + 1, k, d => by
    have ih := retryAux_fail retryable errs hr factor max_delay n (k + 1)
      (min (d * factor) max_delay)
    have hkn : k + 1 + n = k + (n + 1) := by omega
    rw [hkn] at ih
    simp only [Retry.retryAux, failingOp, hr (errs k), if_true, ih, delayList]

theorem utilsAux_fail {E : Type} (errs : ℕ → E) : ∀ (n k : ℕ) (last : Option E),
    Utils.retryAux (failingOp errs) k (n + 1) last
      = (.raisedLast (errs (k + n)), n + 1)
  | 0, k, last => by
    simp [Utils.retryAux, failingOp]
  | n + 1, k, last => by
    have ih := utilsAux_fail errs n (k + 1) (some (errs k))
    have hkn : k + 1 + n = k + (n + 1) := by omega
    rw [hkn] at ih
    have hstep : Utils.retryAux (failingOp errs) k (n + 1 + 1) last
        = ((Utils.retryAux (failingOp errs) (k + 1) (n + 1) (some (errs k))).1,
           (Utils.retryAux (failingOp errs) (k + 1) (n + 1) (some (errs k))).2 + 1) := rfl
    rw [hstep, ih]

/-- Claim C2, counterexample: `utils.py`'s `retry_with_backoff` with
`max_retries = 3` and an operation failing every time invokes the operation
exactly 3 times — not the 4 (`max_retries + 1`) the claim states — because
its loop is `for attempt in range(max_retries)`. -/
theorem retry_utils_calls_counterexample :
    (Utils.retry_with_backoff 3 (failingOp (fun _ => (() : Unit)))).2 = 3 ∧
    ¬ ((Utils.retry_with_backoff 3 (failingOp (fun _ => (() : Unit)))).2 = 3 + 1) := by
  decide

/-- Claim C2 (amended): on an operation failing every attempt with a
retryable error, `retry.py`'s executor invokes the operation exactly
`max_retries + 1` times and then re-raises the last error (logging it as
max retries exceeded), while `utils.py`'s executor invokes it exactly
`max_retries` times and then re-raises the last error. -/
theorem retry_total_attempts {E : Type} (errs : ℕ → E) (retryable : E → Bool)
    (hr : ∀ e, retryable e = true) (max_retries : ℕ) (hmr : 1 ≤ max_retries)
    (initial_delay max_delay backoff_factor : ℚ) :
    (Retry.retry_with_backoff max_retries initial_delay max_delay backoff_factor
      retryable (failingOp errs)).calls = max_retries + 1 ∧
    (Retry.retry_with_backoff max_retries initial_delay max_delay backoff_factor
      retryable (failingOp errs)).outcome = .maxRetriesExceeded (errs max_retries) ∧
    (Utils.retry_with_backoff max_retries (failingOp errs)).2 = max_retries ∧
    (Utils.retry_with_backoff max_retries (failingOp errs)).1
      = .raisedLast (errs (max_retries - 1)) := by
  obtain ⟨m, rfl⟩ : ∃ m, max_retries = m + 1 := by
    cases max_retries with
    | zero => exact absurd hmr (by norm_num)
    | succ m => exact ⟨m, rfl⟩
  have hretry := retryAux_fail retryable errs hr backoff_factor max_delay (m + 1) 0
    initial_delay
  have hutils := utilsAux_fail errs m 0 (none : Option E)
  unfold Retry.retry_with_backoff Utils.retry_with_backoff
  rw [hretry, hutils]
  norm_num

theorem retry_total_attempts_witness :
    (Retry.retry_with_backoff 3 1 60 2 (fun _ : ℕ => true) (failingOp (fun k => k))).calls
      = 3 + 1 :=
  (retry_total_attempts (fun k => k) (fun _ => true) (fun _ => rfl) 3 (by norm_num)
    1 60 2).1

/-! ### The backoff delay sequence (claim C8) -/


theorem delaySeq_shift (initial factor max_delay : ℚ) : ∀ (j : ℕ),
    delaySeq (min (initial * factor) max_delay) factor max_delay j
      = delaySeq initial factor max_delay (j + 1)
  | 0 => rfl
  | j + 1 => by
    simp only [delaySeq, delaySeq_shift initial factor max_delay j]

theorem delayList_eq_range (factor max_delay : ℚ) : ∀ (n : ℕ) (d : ℚ),
    delayList factor max_delay d n
      = (List.range n).map (delaySeq d factor max_delay)
  | 0, d => rfl
  | n + 1, d => by
    rw [delayList, delayList_eq_range factor max_delay n (min (d * factor) max_delay),
      List.range_succ_eq_map, List.map_cons, List.map_map]
    refine congrArg (List.cons d) (List.map_congr_left (fun j _ => ?_))
    exact delaySeq_shift d factor max_delay j

/-- For every retry index beyond the first, the iterated clamped doubling
collapses to the closed form `min(initial * factor^j, max_delay)`. -/
theorem delaySeq_formula (initial factor max_delay : ℚ)
    (hf : 1 ≤ factor) (hM : 0 ≤ max_delay) : ∀ (j : ℕ), 1 ≤ j →
    delaySeq initial factor max_delay j = min (initial * factor ^ j) max_delay
  | 0, h => absurd h (by norm_num)
  | 1, _ => by simp [delaySeq, pow_one]
  | j + 2, _ => by
    have ih := delaySeq_formula initial factor max_delay hf hM (j + 1) (by omega)
    have hf0 : (0:ℚ) ≤ factor := le_trans zero_le_one hf
    have hMf : max_delay ≤ max_delay * factor := le_mul_of_one_le_right hM hf
    rw [delaySeq, ih, min_mul_of_nonneg _ _ hf0, min_assoc,
      min_eq_right hMf, mul_assoc, ← pow_succ]

/-- Claim C8, counterexample: with `initial_delay = 100`,
`backoff_factor = 2`, `max_delay = 60`, the delay slept before the first
retry is `100`, not `min(100 * 2^0, 60) = 60`; in particular the first
delay exceeds `max_delay` (the source clamps only from the second sleep
on: `time.sleep(delay)` runs before `delay = min(delay * factor,
max_delay)`). -/
theorem backoff_first_delay_counterexample :
    (Retry.retry_with_backoff 1 100 60 2 (fun _ : Unit => true)
      (failingOp (fun _ => ()))).delays = [100] ∧
    ¬ ((100 : ℚ) = min (100 * (2:ℚ) ^ (0:ℕ)) 60) ∧ ¬ ((100:ℚ) ≤ 60) := by
  refine ⟨?_, by norm_num, by norm_num⟩
  unfold Retry.retry_with_backoff
  rw [retryAux_fail (fun _ => true) (fun _ => ()) (fun _ => rfl) 2 60 1 0 100]
  rfl

/-- Claim C8 (amended): on an always-failing run the sleeps are exactly the
sequence `delaySeq`; the delay before retry 1 is `initial_delay` itself
(unclamped, so it may exceed `max_delay`), and for every retry `k ≥ 2` the
delay is `min(initial_delay * backoff_factor^(k-1), max_delay)` as the
claim states. -/
theorem backoff_delay_formula {E : Type} (errs : ℕ → E) (retryable : E → Bool)
    (hr : ∀ e, retryable e = true) (max_retries : ℕ)
    (initial_delay max_delay backoff_factor : ℚ)
    (hf : 1 < backoff_factor) (hM : 0 ≤ max_delay) :
    (Retry.retry_with_backoff max_retries initial_delay max_delay backoff_factor
      retryable (failingOp errs)).delays
      = (List.range max_retries).map (delaySeq initial_delay backoff_factor max_delay) ∧
    delaySeq initial_delay backoff_factor max_delay 0 = initial_delay ∧
    (∀ j, 1 ≤ j → delaySeq initial_delay backoff_factor max_delay j
      = min (initial_delay * backoff_factor ^ j) max_delay) := by
  refine ⟨?_, rfl, delaySeq_formula initial_delay backoff_factor max_delay
    (le_of_lt hf) hM⟩
  unfold Retry.retry_with_backoff
  rw [retryAux_fail retryable errs hr backoff_factor max_delay max_retries 0
    initial_delay]
  exact delayList_eq_range backoff_factor max_delay max_retries initial_delay

theorem backoff_delay_formula_witness :
    (Retry.retry_with_backoff 3 1 60 2 (fun _ : Unit => true)
      (failingOp (fun _ => ()))).delays = (List.range 3).map (delaySeq 1 2 60) :=
  (backoff_delay_formula (fun _ => ()) (fun _ => true) (fun _ => rfl) 3 1 60 2
    (by norm_num) (by norm_num)).1

/-! ### Classification of retryable errors (claim C7) -/


/-- Claim C7, counterexample: the code's default filter classifies
`CircuitOpenError` as retryable — `retry.py` with the default
`exceptions = Exception` retries an operation failing with a circuit-open
error (2 invocations at `max_retries = 1`) — whereas the claim says the
default treats all errors as retryable *except* `CircuitOpenError` and
`RateLimitExceededError`, under which it would propagate at once after a
single invocation. -/
theorem default_retryable_counterexample :
    defaultRetryable .CircuitOpenError = true ∧
    specRetryable .CircuitOpenError = false ∧
    (Retry.retry_with_backoff 1 1 60 2 defaultRetryable
      (failingOp (fun _ => ErrKind.CircuitOpenError))).calls = 2 := by
  refine ⟨rfl, rfl, ?_⟩
  unfold Retry.retry_with_backoff
  rw [retryAux_fail defaultRetryable _ (fun _ => rfl) 2 60 1 0 1]

/-- Claim C7 (amended): an error not matching the policy's exception filter
propagates immediately out of the retry loop — a single invocation, no
sleep, no retry slot consumed, the original error unchanged — at whatever
attempt it occurs; but the default filter of the source treats every error
kind as retryable, including `CircuitOpenError` and
`RateLimitExceededError`. -/
theorem nonretryable_propagates {E T : Type} (retryable : E → Bool)
    (op : ℕ → Except E T) (factor max_delay : ℚ) (k n : ℕ) (d : ℚ) (e : E)
    (hop : op k = .error e) (hnr : retryable e = false) :
    Retry.retryAux retryable op factor max_delay k d n = ⟨.propagated e, 1, []⟩ ∧
    (∀ e1 : ErrKind, defaultRetryable e1 = true) := by
  refine ⟨?_, fun _ => rfl⟩
  cases n with
  | zero => simp [Retry.retryAux, hop, hnr]
  | succ m => simp [Retry.retryAux, hop, hnr]

theorem nonretryable_propagates_witness :
    Retry.retryAux specRetryable (failingOp (fun _ => ErrKind.CircuitOpenError))
      2 60 0 1 3 = ⟨.propagated .CircuitOpenError, 1, []⟩ :=
  (nonretryable_propagates specRetryable (failingOp (fun _ => ErrKind.CircuitOpenError))
    2 60 0 3 1 .CircuitOpenError rfl rfl).1


/-- Claim C9, counterexample: when the bucket denies admission,
`post_tweet` returns `None` — a plain non-error value, not a
`RateLimitExceededError` — and an exception raised by the API call is
swallowed into the very same `None`, so the two failure outcomes are
indistinguishable and neither reaches the caller as an error.  The denying
state is reached from a fresh one-request-per-10s bucket after one granted
call. -/
theorem rate_limit_error_counterexample :
    (post_tweet 0 (acquire 0 (initWindows 0 [(1, 10)])).2 (.responseWithId "tid")).1
      = none ∧
    (post_tweet 0 (initWindows 0 [(1, 10)]) .raisedException).1 = none ∧
    (post_tweet 0 (acquire 0 (initWindows 0 [(1, 10)])).2 (.responseWithId "tid")).1
      = (post_tweet 0 (initWindows 0 [(1, 10)]) .raisedException).1 := by
  norm_num [post_tweet, acquire, checkLoop, refillWindow, deduct, initWindows]

/-- Claim C9 (amended): every failure outcome of `post_tweet` is swallowed
into a `None` return — bucket denial, API exception, and missing response
data all yield `None`, with no error value distinguishing them — and the
`rate_limit` decorator likewise converts denial into a `None` return rather
than an error. -/
theorem post_tweet_failures_swallowed (now : ℚ) (ws : List WindowState)
    (api : ApiResult) (T : Type) (now1 : ℚ) (max_requests : ℕ)
    (time_window : ℚ) (requests : List ℚ) (f : T)
    (hdeny : (acquire now ws).1 = false)
    (hdeny1 : (can_make_request now1 max_requests time_window requests).1 = false) :
    post_tweet now ws api = (none, (acquire now ws).2) ∧
    (post_tweet now ws .raisedException).1 = none ∧
    (post_tweet now ws .responseNoData).1 = none ∧
    (rate_limit_call now1 max_requests time_window requests f).1 = none := by
  refine ⟨?_, ?_, ?_, ?_⟩
  · simp only [post_tweet, hdeny]
    rfl
  · simp only [post_tweet, hdeny]
    rfl
  · simp only [post_tweet, hdeny]
    rfl
  · simp only [rate_limit_call, hdeny1]
    rfl

theorem post_tweet_failures_swallowed_witness :
    post_tweet 0 (acquire 0 (initWindows 0 [(1, 10)])).2 (.responseWithId "tid")
      = (none, (acquire 0 (acquire 0 (initWindows 0 [(1, 10)])).2).2) :=
  (post_tweet_failures_swallowed 0 (acquire 0 (initWindows 0 [(1, 10)])).2
    (.responseWithId "tid") Unit 0 0 10 [] ()
    (by norm_num [acquire, checkLoop, refillWindow, deduct, initWindows])
    (by norm_num [can_make_request])).1

end SocialAgent
